import Mathlib

/-!
Shallow embedding of the pippy package registry (`src/main.rs`).

The registry is an in-memory map from package name to `Package`, persisted as
a JSON snapshot (`index.json`) and accompanied by a blob store
(`packages/<name>/<filename>`).  We model:

- `Release`, `Package` — the data model (`main.rs` lines 16-27).  The
  `chrono::DateTime<Utc>` upload time is modelled as an abstract tick count
  (`Nat`); `Utc::now()` becomes an explicit `now` parameter at each call.
- `addReleaseMap` — the pure mutation performed by `PackageIndex::add_release`
  on the package map (entry-or-insert, push, stable re-sort; lines 74-88).
  Rust's `Vec::sort_by` is a stable sort, embedded as `List.mergeSort` with
  the comparator `|a, b| b.upload_time.cmp(&a.upload_time)`.
- `Json`, `encodeIndex`, `decodeIndex` — serde_json's derived serialization
  of `HashMap<String, Package>`, modelled structurally on a JSON AST (struct
  becomes an object of its fields in declaration order, `Vec` an array,
  `String` a string, the timestamp a number); the decoder recognises the
  canonical encoded shape.
- `SystemState`, `save_index`, `load_index`, `add_release`, `store_package`,
  `processField`, `upload_package` — the stateful operations, with the
  file system made explicit: `disk` is the content of `index.json`
  (`none` = file absent) and `blobs` the blob directory tree.  A `writeOk`
  flag models whether the file-system write inside `save_index` succeeds.
  The `HashMap` is modelled as an association list (first match wins, update
  in place, insert at the end), and the lock-protected critical section of
  `add_release` as the sequential mutate-then-save function.
- `parse_filename` — the inline filename parsing of `upload_package`
  (lines 209-217): split on `'-'`, reject when fewer than two segments.
  Rust's `str::split('-')` is embedded as a structural split on the
  character list of the string.

Note `processField` stores `contents = []` regardless of the uploaded
payload: `main.rs` line 219 hard-codes `let contents = vec![];`, with the
actual body read (`field.bytes()`) commented out.  The embedding reproduces
this faithfully.
-/

namespace Pippy

/-- Release record (`main.rs` lines 22-27); the upload time is an abstract
tick count standing for `DateTime<Utc>`. -/
structure Release where
  version : String
  filename : String
  upload_time : Nat
deriving DecidableEq

/-- Package record (`main.rs` lines 16-20). -/
structure Package where
  name : String
  releases : List Release
deriving DecidableEq

/-- The in-memory `HashMap<String, Package>` of `PackageIndex`, modelled as
an association list: lookup returns the first match, update replaces in
place, insertion appends. -/
abbrev Registry := List (String × Package)

/-- Error taxonomy of `AppError` (`main.rs` lines 29-41). -/
inductive AppError where
  | ioError
  | jsonError
  | notFound (s : String)
  | invalidFormat (s : String)
  | multipartError
deriving DecidableEq

/-- Comparator of the re-sort in `add_release` (`main.rs` line 88):
`|a, b| b.upload_time.cmp(&a.upload_time)`, i.e. `a` may precede `b`
exactly when `b.upload_time ≤ a.upload_time` (descending). -/
def releaseLe (a b : Release) : Bool :=
  decide (b.upload_time ≤ a.upload_time)

/-- Push a release and re-establish the ordering, as `add_release` does
after `entry(..).or_insert_with(..)`: push then stable sort descending by
`upload_time` (`main.rs` lines 80-88). -/
def pushRelease (p : Package) (r : Release) : Package :=
  { p with releases := (p.releases ++ [r]).mergeSort releaseLe }

/-- Lookup in the package map (`HashMap::get` semantics on the association
list model). -/
def mapLookup : Registry → String → Option Package
  | [], _ => none
  | (k, p) :: rest, name => if k = name then some p else mapLookup rest name

/-- The mutation of the package map performed inside `add_release`
(`main.rs` lines 74-88): `entry(name).or_insert_with(empty package)`, push
the new release, stable re-sort descending by `upload_time`. -/
def addReleaseMap (name : String) (r : Release) : Registry → Registry
  | [] => [(name, pushRelease { name := name, releases := [] } r)]
  | (k, p) :: rest =>
    if k = name then (k, pushRelease p r) :: rest
    else (k, p) :: addReleaseMap name r rest

/-- The package `entry(name).or_insert_with(..)` starts from: the stored
package if present, otherwise the fresh empty package. -/
def packageOrNew (m : Registry) (name : String) : Package :=
  match mapLookup m name with
  | some p => p
  | none => { name := name, releases := [] }

/-- Releases currently stored for `name` (empty if the package is absent). -/
def releasesOf (m : Registry) (name : String) : List Release :=
  (packageOrNew m name).releases

/-! JSON model of the serde serialization. -/

/-- JSON values, as far as the snapshot format needs them. -/
inductive Json where
  | str (s : String)
  | num (n : Nat)
  | arr (elems : List Json)
  | obj (fields : List (String × Json))

/-- Derived `Serialize` for `Release`: an object of its fields in
declaration order. -/
def encodeRelease (r : Release) : Json :=
  .obj [("version", .str r.version), ("filename", .str r.filename),
        ("upload_time", .num r.upload_time)]

/-- Derived `Deserialize` for `Release`, on the canonical encoded shape. -/
def decodeRelease : Json → Option Release
  | .obj [("version", .str v), ("filename", .str f), ("upload_time", .num t)] =>
    some { version := v, filename := f, upload_time := t }
  | _ => none

/-- Decode a JSON array of releases elementwise. -/
def decodeReleaseList : List Json → Option (List Release)
  | [] => some []
  | j :: rest =>
    match decodeRelease j, decodeReleaseList rest with
    | some r, some rs => some (r :: rs)
    | _, _ => none

/-- Derived `Serialize` for `Package`. -/
def encodePackage (p : Package) : Json :=
  .obj [("name", .str p.name), ("releases", .arr (p.releases.map encodeRelease))]

/-- Derived `Deserialize` for `Package`, on the canonical encoded shape. -/
def decodePackage : Json → Option Package
  | .obj [("name", .str n), ("releases", .arr js)] =>
    match decodeReleaseList js with
    | some rs => some { name := n, releases := rs }
    | none => none
  | _ => none

/-- Serialize the whole map, as `serde_json::to_string_pretty(packages)`
does: a JSON object with one field per package. -/
def encodeIndex (m : Registry) : Json :=
  .obj (m.map (fun e => (e.1, encodePackage e.2)))

/-- Decode the fields of the index object. -/
def decodeIndexEntries : List (String × Json) → Option Registry
  | [] => some []
  | (k, j) :: rest =>
    match decodePackage j, decodeIndexEntries rest with
    | some p, some ps => some ((k, p) :: ps)
    | _, _ => none

/-- Deserialize the snapshot, as `serde_json::from_str` in `load_index`. -/
def decodeIndex : Json → Option Registry
  | .obj entries => decodeIndexEntries entries
  | _ => none

/-! The storage layer and the stateful operations. -/

/-- `PackageStorage::load_index` (`main.rs` lines 112-120): a missing file
yields `Ok(None)`, a present file is deserialized, a malformed one is a
`Json` error. -/
def load_index (disk : Option Json) : Except AppError (Option Registry) :=
  match disk with
  | none => .ok none
  | some j =>
    match decodeIndex j with
    | some m => .ok (some m)
    | none => .error .jsonError

/-- `PackageStorage::save_index` (`main.rs` lines 122-126): serialize the
whole map and rewrite `index.json`.  `writeOk` models whether the
file-system write succeeds; on failure the file keeps its previous
content. -/
def save_index (writeOk : Bool) (m : Registry) (disk : Option Json) :
    Except AppError Unit × Option Json :=
  if writeOk then (.ok (), some (encodeIndex m)) else (.error .ioError, disk)

/-- `PackageIndex::new` (`main.rs` lines 61-66): load the snapshot and
`unwrap_or_default()` — a missing file yields the empty registry, a load
error is propagated (startup fails). -/
def packageIndexNew (disk : Option Json) : Except AppError Registry :=
  match load_index disk with
  | .ok (some m) => .ok m
  | .ok none => .ok []
  | .error e => .error e

/-- Key of a stored blob: `(package name, filename)`. -/
abbrev BlobKey := String × String

/-- Write a blob file (`tokio::fs::write` overwrites an existing file). -/
def blobWrite : List (BlobKey × List Nat) → BlobKey → List Nat →
    List (BlobKey × List Nat)
  | [], key, data => [(key, data)]
  | (k, d) :: rest, key, data =>
    if k = key then (key, data) :: rest else (k, d) :: blobWrite rest key data

/-- Read a blob file back (model-level observation of the blob tree). -/
def blobLookup : List (BlobKey × List Nat) → BlobKey → Option (List Nat)
  | [], _ => none
  | (k, d) :: rest, key => if k = key then some d else blobLookup rest key

/-- The mutable world the handlers touch: the in-memory map, the content of
`index.json` (`none` = absent), and the blob tree. -/
structure SystemState where
  index : Registry
  disk : Option Json
  blobs : List (BlobKey × List Nat)

/-- `PackageIndex::add_release` (`main.rs` lines 68-91): under the exclusive
write lock, mutate the map, then save the snapshot; the result of the save
is the result of the call.  The mutation is kept even when the save fails
(the `?` on `save_index` returns after the map was already updated). -/
def add_release (writeOk : Bool) (now : Nat)
    (name version filename : String) (st : SystemState) :
    Except AppError Unit × SystemState :=
  let index' :=
    addReleaseMap name { version := version, filename := filename, upload_time := now } st.index
  match save_index writeOk index' st.disk with
  | (.ok _, disk') => (.ok (), { st with index := index', disk := disk' })
  | (.error e, disk') => (.error e, { st with index := index', disk := disk' })

/-- `PackageStorage::store_package` (`main.rs` lines 128-138): write the
bytes under `packages/<name>/<filename>`. -/
def store_package (name filename : String) (contents : List Nat)
    (st : SystemState) : SystemState :=
  { st with blobs := blobWrite st.blobs (name, filename) contents }

/-- Structural model of Rust `str::split('-')` on the character list of a
string: adjacent separators and leading/trailing separators produce empty
segments, an input with no separator yields one segment. -/
def splitOnChar (c : Char) : List Char → List (List Char)
  | [] => [[]]
  | x :: rest =>
    if x = c then [] :: splitOnChar c rest
    else
      match splitOnChar c rest with
      | seg :: segs => (x :: seg) :: segs
      | [] => [[x]]

/-- `filename.split('-').collect::<Vec<_>>()` (`main.rs` line 209). -/
def splitDash (s : String) : List String :=
  (splitOnChar '-' s.data).map (fun cs => ⟨cs⟩)

/-- The inline filename parsing of `upload_package` (`main.rs` lines
209-217): split on `'-'`; fewer than two segments is a format error,
otherwise the first segment is the package name and the second the
version. -/
def parse_filename (filename : String) : Option (String × String) :=
  match splitDash filename with
  | p0 :: p1 :: _ => some (p0, p1)
  | _ => none

/-- Rust `str::ends_with` on the character lists. -/
def hasSuffix (s suffix : String) : Bool :=
  decide (s.data.reverse.take suffix.data.length = suffix.data.reverse)

/-- One multipart part: an optional filename and a byte payload. -/
structure Field where
  filename : Option String
  payload : List Nat

/-- The body of the `upload_package` loop for one part (`main.rs` lines
202-230): skip parts without a filename or without the `.whl` suffix; parse
the filename (error `InvalidFormat` on failure); store the blob — with
`contents = vec![]` hard-coded at line 219, the payload is ignored — then
call `add_release`. -/
def processField (writeOk : Bool) (now : Nat) (st : SystemState)
    (fld : Field) : Except AppError Unit × SystemState :=
  match fld.filename with
  | none => (.ok (), st)
  | some filename =>
    if hasSuffix filename ".whl" = false then (.ok (), st)
    else
      match parse_filename filename with
      | none => (.error (.invalidFormat "Invalid package filename format"), st)
      | some (package_name, version) =>
        let contents : List Nat := []
        let st₁ := store_package package_name filename contents st
        add_release writeOk now package_name version filename st₁

/-- The `upload_package` handler (`main.rs` lines 198-234): process the
parts in order; the first error aborts the request, keeping the state
mutations already performed. -/
def upload_package (writeOk : Bool) (now : Nat) :
    List Field → SystemState → Except AppError Unit × SystemState
  | [], st => (.ok (), st)
  | fld :: rest, st =>
    match processField writeOk now st fld with
    | (.ok _, st') => upload_package writeOk now rest st'
    | (.error e, st') => (.error e, st')

/-! Sequences of `add_release` calls, and the observation predicates the
claims are stated with. -/

/-- One `add_release` call: target package, version, filename, and the value
of the clock (`Utc::now()`) at the moment of the call. -/
structure Call where
  name : String
  version : String
  filename : String
  now : Nat

/-- The release record a call appends. -/
def relOf (c : Call) : Release :=
  { version := c.version, filename := c.filename, upload_time := c.now }

/-- Effect of one call on the package map. -/
def stepCall (m : Registry) (c : Call) : Registry :=
  addReleaseMap c.name (relOf c) m

/-- Run a sequence of calls against the empty registry. -/
def runCalls (calls : List Call) : Registry :=
  calls.foldl stepCall []

/-- The releases inserted for `name` by a call sequence, in call order. -/
def insertionsFor (name : String) (calls : List Call) : List Release :=
  (calls.filter (fun c => c.name == name)).map relOf

/-- Releases sorted by `upload_time` in descending order. -/
def SortedDesc (l : List Release) : Prop :=
  List.Pairwise (fun a b => b.upload_time ≤ a.upload_time) l

/-- Invariant tying the map to the per-package insertion histories: every
stored package has its releases sorted descending and, timestamp by
timestamp, equal to its insertion history; absent packages have an empty
history. -/
def HistInv (m : Registry) (hist : String → List Release) : Prop :=
  (∀ k p, mapLookup m k = some p →
    SortedDesc p.releases ∧
    ∀ t, p.releases.filter (fun r => r.upload_time == t) =
      (hist k).filter (fun r => r.upload_time == t)) ∧
  (∀ k, mapLookup m k = none → hist k = [])

/-- Every entry of the map stores a package whose `name` field equals the
key it is stored under. -/
def WellNamed (m : Registry) : Prop :=
  ∀ k p, mapLookup m k = some p → p.name = k

/-- The durable snapshot (the content of `index.json`) records a release
with filename `fname` for package `pname`. -/
def diskHasRelease (disk : Option Json) (pname fname : String) : Prop :=
  ∃ j m p r, disk = some j ∧ decodeIndex j = some m ∧
    mapLookup m pname = some p ∧ r ∈ p.releases ∧ r.filename = fname

/-! Helper lemmas. -/

theorem releaseLe_trans (a b c : Release) :
    releaseLe a b → releaseLe b c → releaseLe a c := by
  simp only [releaseLe, decide_eq_true_eq]
  omega

theorem releaseLe_total (a b : Release) :
    releaseLe a b || releaseLe b a := by
  simp only [releaseLe, Bool.or_eq_true, decide_eq_true_eq]
  omega

/-- Stability of the re-sort, stated on the observable level: the
subsequence of releases carrying any fixed timestamp is untouched by the
sort. -/
theorem filter_time_mergeSort (l : List Release) (t : Nat) :
    (l.mergeSort releaseLe).filter (fun r => r.upload_time == t) =
      l.filter (fun r => r.upload_time == t) := by
  have hpair : (l.filter (fun r => r.upload_time == t)).Pairwise
      (fun a b => releaseLe a b = true) := by
    apply List.pairwise_of_forall_mem_list
    intro a ha b hb
    have ha' := List.of_mem_filter ha
    have hb' := List.of_mem_filter hb
    simp only [beq_iff_eq] at ha' hb'
    simp only [releaseLe, decide_eq_true_eq, ha', hb']
    omega
  have h1 : List.Sublist (l.filter (fun r => r.upload_time == t))
      (l.mergeSort releaseLe) :=
    List.sublist_mergeSort releaseLe_trans releaseLe_total hpair
      (List.filter_sublist l)
  have h2 := h1.filter (fun r => r.upload_time == t)
  rw [List.filter_filter] at h2
  simp only [Bool.and_self] at h2
  have h3 : ((l.mergeSort releaseLe).filter (fun r => r.upload_time == t)).length =
      (l.filter (fun r => r.upload_time == t)).length :=
    ((List.mergeSort_perm l releaseLe).filter _).length_eq
  exact (h2.eq_of_length h3.symm).symm

theorem mapLookup_addReleaseMap_self (name : String) (r : Release)
    (m : Registry) :
    mapLookup (addReleaseMap name r m) name =
      some (pushRelease (packageOrNew m name) r) := by
  induction m with
  | nil => simp [addReleaseMap, mapLookup, packageOrNew]
  | cons e rest ih =>
    obtain ⟨k, p⟩ := e
    by_cases hk : k = name
    · subst hk
      simp [addReleaseMap, mapLookup, packageOrNew]
    · simp [addReleaseMap, mapLookup, packageOrNew, hk] at ih ⊢
      exact ih

theorem mapLookup_addReleaseMap_ne (name k : String) (r : Release)
    (m : Registry) (h : k ≠ name) :
    mapLookup (addReleaseMap name r m) k = mapLookup m k := by
  have hne : name ≠ k := Ne.symm h
  induction m with
  | nil => simp [addReleaseMap, mapLookup, hne]
  | cons e rest ih =>
    obtain ⟨k', p⟩ := e
    by_cases hk : k' = name
    · subst hk
      simp [addReleaseMap, mapLookup, hne]
    · simp [addReleaseMap, mapLookup, hk, ih]

theorem blobLookup_blobWrite_self (bs : List (BlobKey × List Nat))
    (key : BlobKey) (data : List Nat) :
    blobLookup (blobWrite bs key data) key = some data := by
  induction bs with
  | nil => simp [blobWrite, blobLookup]
  | cons e rest ih =>
    obtain ⟨k, d⟩ := e
    by_cases hk : k = key
    · subst hk
      simp [blobWrite, blobLookup]
    · simp [blobWrite, blobLookup, hk, ih]

theorem decodeReleaseList_encode (rs : List Release) :
    decodeReleaseList (rs.map encodeRelease) = some rs := by
  induction rs with
  | nil => rfl
  | cons r rest ih =>
    simp only [List.map_cons, decodeReleaseList, ih]
    rfl

theorem decodePackage_encodePackage (p : Package) :
    decodePackage (encodePackage p) = some p := by
  simp only [encodePackage, decodePackage, decodeReleaseList_encode]

theorem decodeIndexEntries_encode (m : Registry) :
    decodeIndexEntries (m.map (fun e => (e.1, encodePackage e.2))) = some m := by
  induction m with
  | nil => rfl
  | cons e rest ih =>
    simp only [List.map_cons, decodeIndexEntries, decodePackage_encodePackage, ih]

theorem decodeIndex_encodeIndex (m : Registry) :
    decodeIndex (encodeIndex m) = some m := by
  simp only [encodeIndex, decodeIndex, decodeIndexEntries_encode]

theorem sortedDesc_mergeSort (l : List Release) :
    SortedDesc (l.mergeSort releaseLe) := by
  have h := List.sorted_mergeSort releaseLe_trans releaseLe_total l
  exact h.imp (fun hab => by
    simpa [releaseLe, decide_eq_true_eq] using hab)

theorem histInv_congr (m : Registry) (hist hist' : String → List Release)
    (h : ∀ k, hist k = hist' k) (hi : HistInv m hist) : HistInv m hist' := by
  obtain ⟨h1, h2⟩ := hi
  refine ⟨fun k p hp => ?_, fun k hk => ?_⟩
  · have := h1 k p hp
    rw [h k] at this
    exact this
  · rw [← h k]
    exact h2 k hk

theorem histInv_step (m : Registry) (hist : String → List Release) (c : Call)
    (h : HistInv m hist) :
    HistInv (stepCall m c)
      (fun k => if c.name = k then hist k ++ [relOf c] else hist k) := by
  obtain ⟨h1, h2⟩ := h
  constructor
  · intro k p hp
    by_cases hk : k = c.name
    · rw [stepCall, hk, mapLookup_addReleaseMap_self] at hp
      injection hp with hp
      refine ⟨?_, fun t => ?_⟩
      · rw [← hp]
        exact sortedDesc_mergeSort _
      · rw [← hp]
        simp only [pushRelease]
        rw [filter_time_mergeSort, List.filter_append]
        simp only [hk, if_true]
        rw [List.filter_append]
        congr 1
        cases hq : mapLookup m c.name with
        | some q =>
          have hfq := (h1 _ q hq).2 t
          simpa [packageOrNew, hq] using hfq
        | none =>
          have hh := h2 _ hq
          simp [packageOrNew, hq, hh]
    · rw [stepCall, mapLookup_addReleaseMap_ne _ _ _ _ hk] at hp
      simpa [Ne.symm hk] using h1 k p hp
  · intro k hk
    by_cases hkc : k = c.name
    · rw [stepCall, hkc, mapLookup_addReleaseMap_self] at hk
      exact Option.noConfusion hk
    · rw [stepCall, mapLookup_addReleaseMap_ne _ _ _ _ hkc] at hk
      simpa [Ne.symm hkc] using h2 k hk

theorem histInv_foldl (calls : List Call) :
    ∀ (m : Registry) (hist : String → List Release), HistInv m hist →
      HistInv (calls.foldl stepCall m)
        (fun k => hist k ++ insertionsFor k calls) := by
  induction calls with
  | nil =>
    intro m hist h
    exact histInv_congr m hist _ (fun k => by simp [insertionsFor]) h
  | cons c cs ih =>
    intro m hist h
    have h'' := ih (stepCall m c) _ (histInv_step m hist c h)
    rw [List.foldl_cons]
    refine histInv_congr _ _ _ (fun k => ?_) h''
    by_cases hk : c.name = k
    · simp [insertionsFor, List.filter_cons, relOf, hk, List.append_assoc]
    · simp [insertionsFor, List.filter_cons, hk]

/-! The claims. -/

/-- C1: whenever `add_release` succeeds, the snapshot written to
`index.json` is exactly the serialization of the in-memory package map as
it stands at the end of the call.  The save runs inside the same critical
section as the mutation, modelled by the sequential mutate-then-save body
of `add_release`: the serialized map is the mutated one, with no further
mutation before the write. -/
theorem add_release_snapshot_reflects (writeOk : Bool) (now : Nat)
    (name version filename : String) (st : SystemState)
    (h : (add_release writeOk now name version filename st).1 = .ok ()) :
    (add_release writeOk now name version filename st).2.disk =
      some (encodeIndex
        ((add_release writeOk now name version filename st).2.index)) := by
  cases writeOk with
  | false => simp [add_release, save_index] at h
  | true => rfl

/-- Witness for C1 at a concrete successful call on the empty state. -/
theorem add_release_snapshot_reflects_witness :
    (add_release true 5 "a" "1" "f" ⟨[], none, []⟩).1 = .ok () ∧
    (add_release true 5 "a" "1" "f" ⟨[], none, []⟩).2.disk =
      some (encodeIndex
        ((add_release true 5 "a" "1" "f" ⟨[], none, []⟩).2.index)) :=
  ⟨rfl, add_release_snapshot_reflects true 5 "a" "1" "f" ⟨[], none, []⟩ rfl⟩

/-- C2 (code bug, `main.rs` line 219): the upload pipeline stores the blob
with the hard-coded `vec![]` instead of the part's payload — the actual
body read is commented out.  At a part carrying payload `[1, 2, 3]` and a
valid `.whl` filename, the upload succeeds but the stored blob is the empty
byte string, not the payload. -/
theorem upload_blob_ignores_payload :
    (processField true 7 ⟨[], none, []⟩
      ⟨some "pkg-1.0.0-py3-none-any.whl", [1, 2, 3]⟩).1 = .ok () ∧
    blobLookup (processField true 7 ⟨[], none, []⟩
        ⟨some "pkg-1.0.0-py3-none-any.whl", [1, 2, 3]⟩).2.blobs
      ("pkg", "pkg-1.0.0-py3-none-any.whl") = some [] ∧
    ([] : List Nat) ≠ [1, 2, 3] :=
  ⟨rfl, rfl, by decide⟩

/-- C3: after any sequence of `add_release` calls against the empty
registry, every package's releases list is sorted by `upload_time`
descending, and the releases carrying any fixed timestamp appear exactly in
their insertion order (the re-sort after every insert is stable). -/
theorem addRelease_sorted_and_stable (calls : List Call) (name : String)
    (p : Package) (h : mapLookup (runCalls calls) name = some p) :
    SortedDesc p.releases ∧
    ∀ t, p.releases.filter (fun r => r.upload_time == t) =
      (insertionsFor name calls).filter (fun r => r.upload_time == t) := by
  have base : HistInv [] (fun _ => []) := by
    constructor
    · intro k q hq
      exact Option.noConfusion hq
    · intro k _
      rfl
  have hall := histInv_foldl calls [] (fun _ => []) base
  have hres := hall.1 name p (by rw [runCalls] at h; exact h)
  simpa using hres

/-- Witness for C3: two calls to the same package with equal timestamps
keep their insertion order through the stable re-sort. -/
theorem addRelease_sorted_and_stable_witness :
    mapLookup (runCalls [⟨"a", "1", "f", 5⟩, ⟨"a", "2", "g", 5⟩]) "a" =
      some { name := "a",
             releases := [⟨"1", "f", 5⟩, ⟨"2", "g", 5⟩] } ∧
    SortedDesc [(⟨"1", "f", 5⟩ : Release), ⟨"2", "g", 5⟩] ∧
    List.filter (fun r => r.upload_time == 5)
        [(⟨"1", "f", 5⟩ : Release), ⟨"2", "g", 5⟩] =
      List.filter (fun r => r.upload_time == 5)
        (insertionsFor "a" [⟨"a", "1", "f", 5⟩, ⟨"a", "2", "g", 5⟩]) := by
  have hl : mapLookup (runCalls [⟨"a", "1", "f", 5⟩, ⟨"a", "2", "g", 5⟩]) "a" =
      some { name := "a", releases := [⟨"1", "f", 5⟩, ⟨"2", "g", 5⟩] } := by
    simp [runCalls, stepCall, addReleaseMap, pushRelease, relOf, mapLookup,
      packageOrNew, releaseLe, List.mergeSort]
  have hmain := addRelease_sorted_and_stable _ "a" _ hl
  exact ⟨hl, hmain.1, hmain.2 5⟩

/-- C4: loading the snapshot produced by saving any registry state yields
exactly that state back — same keys, same release lists, same versions,
filenames and timestamps. -/
theorem load_index_after_save_index (m : Registry) (disk : Option Json) :
    load_index (save_index true m disk).2 = .ok (some m) := by
  simp [save_index, load_index, decodeIndex_encodeIndex]

/-- C5: when the persistence step of `add_release` fails, the call returns
an error, the snapshot file is untouched, but the in-memory mutation (the
appended release, and the package entry if newly created) remains in the
registry map — nothing is rolled back. -/
theorem add_release_save_failure_keeps_mutation (now : Nat)
    (name version filename : String) (st : SystemState) :
    (add_release false now name version filename st).1 =
      .error AppError.ioError ∧
    (add_release false now name version filename st).2.disk = st.disk ∧
    (add_release false now name version filename st).2.index =
      addReleaseMap name ⟨version, filename, now⟩ st.index ∧
    ∃ p, mapLookup
        (add_release false now name version filename st).2.index name =
          some p ∧
      p.releases.Perm
        (releasesOf st.index name ++ [⟨version, filename, now⟩]) := by
  refine ⟨rfl, rfl, rfl,
    ⟨pushRelease (packageOrNew st.index name) ⟨version, filename, now⟩,
      ?_, ?_⟩⟩
  · exact mapLookup_addReleaseMap_self name _ st.index
  · exact List.mergeSort_perm _ _

/-- C6: the filename parsing splits on `'-'` and fails with
`InvalidFormat` exactly when the split yields fewer than two segments; with
at least two segments the first is the package name and the second the
version; `"requests-2.31.0-py3-none-any.whl"` parses to
`("requests", "2.31.0")` and `"foo.whl"` is rejected. -/
theorem parse_filename_spec :
    (∀ s : String, parse_filename s = none ↔ (splitDash s).length < 2) ∧
    (∀ (s p0 p1 : String) (rest : List String),
      splitDash s = p0 :: p1 :: rest → parse_filename s = some (p0, p1)) ∧
    (∀ (writeOk : Bool) (now : Nat) (st : SystemState) (fname : String)
      (payload : List Nat), hasSuffix fname ".whl" = true →
      parse_filename fname = none →
      (processField writeOk now st ⟨some fname, payload⟩).1 =
        .error (AppError.invalidFormat "Invalid package filename format")) ∧
    parse_filename "requests-2.31.0-py3-none-any.whl" =
      some ("requests", "2.31.0") ∧
    parse_filename "foo.whl" = none := by
  refine ⟨?_, ?_, ?_, by decide, by decide⟩
  · intro s
    cases h : splitDash s with
    | nil => simp [parse_filename, h]
    | cons a tl =>
      cases tl with
      | nil => simp [parse_filename, h]
      | cons b tl2 => simp [parse_filename, h]
  · intro s p0 p1 rest h
    simp [parse_filename, h]
  · intro writeOk now st fname payload hsuf hparse
    simp [processField, hsuf, hparse]

/-- Witness for C6 at concrete filenames. -/
theorem parse_filename_spec_witness :
    splitDash "a-b" = ["a", "b"] ∧
    parse_filename "a-b" = some ("a", "b") ∧
    hasSuffix "foo.whl" ".whl" = true ∧
    parse_filename "foo.whl" = none ∧
    (processField true 1 ⟨[], none, []⟩ ⟨some "foo.whl", []⟩).1 =
      .error (AppError.invalidFormat "Invalid package filename format") :=
  ⟨by decide, parse_filename_spec.2.1 "a-b" "a" "b" [] (by decide),
    by decide, by decide,
    parse_filename_spec.2.2.1 true 1 ⟨[], none, []⟩ "foo.whl" []
      (by decide) (by decide)⟩

/-- C7: at startup, a missing snapshot file yields the empty registry and
no error, while a present but undeserializable snapshot makes startup fail
with an error. -/
theorem startup_missing_vs_malformed (j : Json) :
    packageIndexNew none = .ok [] ∧
    (decodeIndex j = none →
      packageIndexNew (some j) = .error AppError.jsonError) := by
  refine ⟨rfl, fun h => ?_⟩
  simp [packageIndexNew, load_index, h]

/-- Witness for C7 at a malformed snapshot (a bare number is not a package
map). -/
theorem startup_missing_vs_malformed_witness :
    decodeIndex (Json.num 0) = none ∧
    packageIndexNew (some (Json.num 0)) = .error AppError.jsonError :=
  ⟨rfl, (startup_missing_vs_malformed (Json.num 0)).2 rfl⟩

/-- C8: the blob write precedes the registry update and the two are not
transactional.  When the blob write succeeds and the subsequent
`add_release` fails (its persistence step fails), the request fails, the
blob stays on disk, and the durable index snapshot (`index.json`) is left
as it was — it records no release entry for the stored blob, which is
therefore orphaned with respect to the persisted index.  (Per C5 the
in-memory map does hold the entry; "untracked by the index" refers to the
durable snapshot.) -/
theorem orphaned_blob_on_save_failure (now : Nat) (st : SystemState)
    (fname pname version : String) (payload : List Nat)
    (hsuf : hasSuffix fname ".whl" = true)
    (hparse : parse_filename fname = some (pname, version))
    (habsent : ¬ diskHasRelease st.disk pname fname) :
    (processField false now st ⟨some fname, payload⟩).1 =
      .error AppError.ioError ∧
    blobLookup (processField false now st ⟨some fname, payload⟩).2.blobs
      (pname, fname) = some [] ∧
    (processField false now st ⟨some fname, payload⟩).2.disk = st.disk ∧
    ¬ diskHasRelease
      (processField false now st ⟨some fname, payload⟩).2.disk pname fname := by
  have h1 : (processField false now st ⟨some fname, payload⟩).1 =
      .error AppError.ioError := by
    simp [processField, hsuf, hparse, add_release, save_index, store_package]
  have h2 : blobLookup (processField false now st ⟨some fname, payload⟩).2.blobs
      (pname, fname) = some [] := by
    simp [processField, hsuf, hparse, add_release, save_index, store_package,
      blobLookup_blobWrite_self]
  have h3 : (processField false now st ⟨some fname, payload⟩).2.disk =
      st.disk := by
    simp [processField, hsuf, hparse, add_release, save_index, store_package]
  refine ⟨h1, h2, h3, ?_⟩
  rw [h3]
  exact habsent

/-- Witness for C8: a concrete upload against the empty state with a
failing snapshot write. -/
theorem orphaned_blob_on_save_failure_witness :
    hasSuffix "pkg-1.0.0-py3-none-any.whl" ".whl" = true ∧
    parse_filename "pkg-1.0.0-py3-none-any.whl" = some ("pkg", "1.0.0") ∧
    ¬ diskHasRelease (none : Option Json) "pkg" "pkg-1.0.0-py3-none-any.whl" ∧
    ((processField false 3 ⟨[], none, []⟩
        ⟨some "pkg-1.0.0-py3-none-any.whl", [9]⟩).1 =
          .error AppError.ioError ∧
      blobLookup (processField false 3 ⟨[], none, []⟩
          ⟨some "pkg-1.0.0-py3-none-any.whl", [9]⟩).2.blobs
        ("pkg", "pkg-1.0.0-py3-none-any.whl") = some [] ∧
      (processField false 3 ⟨[], none, []⟩
          ⟨some "pkg-1.0.0-py3-none-any.whl", [9]⟩).2.disk = none ∧
      ¬ diskHasRelease (processField false 3 ⟨[], none, []⟩
          ⟨some "pkg-1.0.0-py3-none-any.whl", [9]⟩).2.disk
        "pkg" "pkg-1.0.0-py3-none-any.whl") := by
  have hab : ¬ diskHasRelease (none : Option Json) "pkg"
      "pkg-1.0.0-py3-none-any.whl" := by
    rintro ⟨j, m, p, r, hj, -⟩
    exact Option.noConfusion hj
  exact ⟨by decide, by decide, hab,
    orphaned_blob_on_save_failure 3 ⟨[], none, []⟩
      "pkg-1.0.0-py3-none-any.whl" "pkg" "1.0.0" [9]
      (by decide) (by decide) hab⟩

/-- C9: `add_release` is frame-preserving on the package map — every other
key's entry is unchanged, and the target package keeps all its previous
releases (as a multiset) while gaining exactly the one new release, so its
release count grows by one. -/
theorem add_release_frame (m : Registry) (name version filename : String)
    (now : Nat) :
    (∀ k, k ≠ name →
      mapLookup (addReleaseMap name ⟨version, filename, now⟩ m) k =
        mapLookup m k) ∧
    ∃ p, mapLookup (addReleaseMap name ⟨version, filename, now⟩ m) name =
        some p ∧
      p.releases.Perm (releasesOf m name ++ [⟨version, filename, now⟩]) ∧
      p.releases.length = (releasesOf m name).length + 1 := by
  refine ⟨fun k hk => mapLookup_addReleaseMap_ne name k _ m hk,
    ⟨pushRelease (packageOrNew m name) ⟨version, filename, now⟩,
      mapLookup_addReleaseMap_self name _ m, ?_, ?_⟩⟩
  · exact List.mergeSort_perm _ _
  · simp [pushRelease, releasesOf]

/-- Witness for C9 at a concrete map and a distinct other key. -/
theorem add_release_frame_witness :
    (("b" : String) ≠ "a") ∧
    mapLookup (addReleaseMap "a" ⟨"1", "f", 2⟩ []) "b" =
      mapLookup ([] : Registry) "b" ∧
    ∃ p, mapLookup (addReleaseMap "a" ⟨"1", "f", 2⟩ []) "a" = some p ∧
      p.releases.Perm (releasesOf [] "a" ++ [⟨"1", "f", 2⟩]) ∧
      p.releases.length = (releasesOf [] "a").length + 1 :=
  ⟨by decide, (add_release_frame [] "a" "1" "f" 2).1 "b" (by decide),
    (add_release_frame [] "a" "1" "f" 2).2⟩

/-- C10: the empty registry satisfies, and every `add_release` call
preserves, the invariant that each stored package's `name` field equals the
map key it is stored under. -/
theorem addRelease_preserves_wellNamed :
    WellNamed [] ∧
    ∀ (m : Registry) (name version filename : String) (now : Nat),
      WellNamed m →
      WellNamed (addReleaseMap name ⟨version, filename, now⟩ m) := by
  constructor
  · intro k p hp
    exact Option.noConfusion hp
  · intro m name version filename now hm k p hp
    by_cases hk : k = name
    · rw [hk, mapLookup_addReleaseMap_self] at hp
      injection hp with hp
      rw [← hp, hk]
      show (packageOrNew m name).name = name
      cases hq : mapLookup m name with
      | some q =>
        have := hm name q hq
        simpa [packageOrNew, hq] using this
      | none => simp [packageOrNew, hq]
    · rw [mapLookup_addReleaseMap_ne _ _ _ _ hk] at hp
      exact hm k p hp

/-- Witness for C10 at the empty registry and one concrete call. -/
theorem addRelease_preserves_wellNamed_witness :
    WellNamed ([] : Registry) ∧
    WellNamed (addReleaseMap "a" ⟨"1", "f", 2⟩ []) :=
  ⟨addRelease_preserves_wellNamed.1,
    addRelease_preserves_wellNamed.2 [] "a" "1" "f" 2
      addRelease_preserves_wellNamed.1⟩

end Pippy
